/-
Verification of the py-ecs-tds frontend client (frontend/src/index.ts):
a shallow embedding of its message-driven world-state store, the
rate-limited coalescing sender ("Debouncer"), the notification decay
tick, the scoreboard projection, and the render-loop step, together
with theorems settling the specification claims about them.

Modelling conventions:
* JavaScript numbers are modelled as `Int` where the program only ever
  holds integers (ids, health, score, millisecond timestamps) and as `ℚ`
  where fractional values occur (coordinates, angles, notification ttl,
  frame deltas).  Exact arithmetic stands in for IEEE doubles.
* A JavaScript `Map` is modelled as an insertion-ordered association
  list (`Map.set` on a present key updates the value in place, on an
  absent key appends; `values()` iterates in insertion order).
* `console.error` calls are modelled as a list of diagnostic strings
  returned next to the updated state.
* `Array.prototype.sort` with a comparator derived from a key function
  is stable (ECMA-262); a stable sort w.r.t. a total preorder has a
  uniquely determined output, modelled here by a stable insertion sort.
-/
import Mathlib

namespace TdsClient

open List (Perm Sublist)
open scoped List

/-! ## Insertion-ordered association lists: the model of a JS `Map` -/

section JsMap

variable {V : Type}

/-- Model of `Map.prototype.has`-style key membership (`m.has(k)`). -/
def containsKey (m : List (Int × V)) (k : Int) : Bool :=
  m.any (fun q => q.1 == k)

/-- Model of `Map.prototype.get`: value of the first entry whose key is `k`. -/
def mapGet (m : List (Int × V)) (k : Int) : Option V :=
  (m.find? (fun q => q.1 == k)).map (fun q => q.2)

/-- In-place overwrite of the value at key `k` (insertion position kept). -/
def setInPlace (m : List (Int × V)) (k : Int) (v : V) : List (Int × V) :=
  m.map (fun q => if q.1 == k then (k, v) else q)

/-- Model of `Map.prototype.set`: overwrite the value in place when the key
is present (insertion position preserved), append a new entry otherwise. -/
def mapSet (m : List (Int × V)) (k : Int) (v : V) : List (Int × V) :=
  if containsKey m k then setInPlace m k v
  else m ++ [(k, v)]

/-- Model of `Map.prototype.delete`. -/
def mapDelete (m : List (Int × V)) (k : Int) : List (Int × V) :=
  m.filter (fun q => q.1 != k)

/-- Model of updating fields of the object returned by `get` in place
(`player.x = msg.x` after `players.get(msg.id)`). -/
def mapUpdate (m : List (Int × V)) (k : Int) (f : V → V) : List (Int × V) :=
  m.map (fun q => if q.1 == k then (k, f q.2) else q)

/-- Model of `Map.prototype.values()` (insertion order). -/
def mapValues (m : List (Int × V)) : List V :=
  m.map (fun q => q.2)

end JsMap

/-! ## Data model (frontend/src/index.ts, types `Player`, `Box`, `Circle`,
`Notification`, bullet record, and the `schema` namespace) -/

structure Player where
  id : Int
  username : String
  x : ℚ
  y : ℚ
  angle : ℚ
  health : Int
  score : Int
deriving DecidableEq, Repr

structure Bullet where
  x : ℚ
  y : ℚ
  isSupercharged : Bool
deriving DecidableEq, Repr

structure Box where
  x : ℚ
  y : ℚ
  width : ℚ
  height : ℚ
deriving DecidableEq, Repr

structure Circle where
  x : ℚ
  y : ℚ
  radius : ℚ
deriving DecidableEq, Repr

structure Notification where
  message : String
  ttl : ℚ
deriving DecidableEq, Repr

/-- `schema.PlayerIntro`. -/
structure PlayerIntro where
  id : Int
  username : String
  x : ℚ
  y : ℚ
  angle : ℚ
  health : Int
  score : Int
deriving DecidableEq, Repr

/-- `schema.ShapeIntro`. -/
inductive ShapeIntro where
  | box (x y width height : ℚ)
  | circle (x y radius : ℚ)
deriving DecidableEq, Repr

/-- `schema.ServerMessage`.  The wire carries JSON with a string tag, so a
message whose tag is outside the schema can reach the dispatcher; the extra
`unknownTag` constructor models exactly such a message. -/
inductive ServerMessage where
  | welcome (client_id : Int)
  | goodbye
  | player_joined (id : Int) (username : String)
  | player_left (id : Int)
  | player_died (id : Int)
  | player_position (id : Int) (x y angle : ℚ)
  | player_health_changed (id : Int) (new_health : Int)
  | player_score_changed (id : Int) (new_score : Int)
  | bullet_position (id : Int) (x y : ℚ) (is_supercharged : Bool)
  | bullet_gone (id : Int)
  | world_snapshot (players : List PlayerIntro) (shapes : List ShapeIntro)
  | bad_message (error : String)
  | unknownTag (tag : String)
deriving DecidableEq, Repr

/-- The mutable state owned by class `Game` that inbound messages touch. -/
structure GameState where
  players : List (Int × Player)
  bullets : List (Int × Bullet)
  boxes : List Box
  circles : List Circle
  notifications : List Notification
  myId : Option Int
deriving DecidableEq, Repr

/-- Conversion used by the `world_snapshot` branch (`players.set(player.id, {...})`). -/
def introToPlayer (p : PlayerIntro) : Player :=
  ⟨p.id, p.username, p.x, p.y, p.angle, p.health, p.score⟩

/-- `for (const player of msg.players) this.players.set(player.id, {...})`. -/
def setMany (m : List (Int × Player)) (ps : List PlayerIntro) : List (Int × Player) :=
  ps.foldl (fun acc p => mapSet acc p.id (introToPlayer p)) m

/-- The diagnostic emitted when an update names an unknown player id. -/
def missingPlayerMsg (id : Int) : String :=
  "Player with ID " ++ toString id ++ " not found!"

/-- `Game.processMessage`, transcribed branch by branch; the returned list
holds the `console.error` diagnostics the branch emits.  The source's
`if`/`else if` chain has no final `else`, so `goodbye` and out-of-schema
tags fall through with no effect and no diagnostic. -/
def processMessage (s : GameState) (msg : ServerMessage) : GameState × List String :=
  match msg with
  | .welcome client_id => ({ s with myId := some client_id }, [])
  | .player_position id x y angle =>
      match mapGet s.players id with
      | none => (s, [missingPlayerMsg id])
      | some _ =>
          ({ s with players :=
              mapUpdate s.players id (fun p => { p with x := x, y := y, angle := angle }) }, [])
  | .player_health_changed id new_health =>
      match mapGet s.players id with
      | none => (s, [missingPlayerMsg id])
      | some _ =>
          ({ s with players :=
              mapUpdate s.players id (fun p => { p with health := new_health }) }, [])
  | .player_score_changed id new_score =>
      match mapGet s.players id with
      | none => (s, [missingPlayerMsg id])
      | some _ =>
          ({ s with players :=
              mapUpdate s.players id (fun p => { p with score := new_score }) }, [])
  | .world_snapshot players shapes =>
      let acc := shapes.foldl (fun acc sh =>
        match sh with
        | .box x y w h => (acc.1 ++ [Box.mk x y w h], acc.2)
        | .circle x y r => (acc.1, acc.2 ++ [Circle.mk x y r])) (s.boxes, s.circles)
      ({ s with players := setMany s.players players, boxes := acc.1, circles := acc.2 }, [])
  | .player_joined id username =>
      ({ s with
          players := mapSet s.players id ⟨id, username, 0, 0, 0, 0, 0⟩,
          notifications := s.notifications ++ [⟨username ++ " joined", 6⟩] }, [])
  | .player_died id =>
      match mapGet s.players id with
      | none => (s, [])
      | some p =>
          ({ s with
              notifications := s.notifications ++ [⟨p.username ++ " died", 6⟩],
              players := mapDelete s.players id }, [])
  | .player_left id =>
      match mapGet s.players id with
      | none => (s, [])
      | some p =>
          ({ s with
              notifications := s.notifications ++ [⟨p.username ++ " left", 6⟩],
              players := mapDelete s.players id }, [])
  | .bullet_position id x y sc =>
      ({ s with bullets := mapSet s.bullets id ⟨x, y, sc⟩ }, [])
  | .bullet_gone id =>
      ({ s with bullets := mapDelete s.bullets id }, [])
  | .bad_message error => (s, ["We sent a bad message: " ++ error])
  | .goodbye => (s, [])
  | .unknownTag _ => (s, [])

/-! ## Notification decay and the render-loop step (`Game.renderFrame`,
`Game.beginRender`) -/

/-- The notification tick inside `renderFrame`:
`notifications.forEach(n => n.ttl -= delta)` followed by
`notifications = notifications.filter(({ttl}) => ttl >= 0)`. -/
def tickNotifications (l : List Notification) (delta : ℚ) : List Notification :=
  (l.map (fun n => { n with ttl := n.ttl - delta })).filter (fun n => decide (0 ≤ n.ttl))

/-- The state effect of `renderFrame` (the rest of the body only draws to
the canvas; the notification list is the only `Game` state it writes). -/
def renderFrameState (g : GameState) (delta : ℚ) : GameState :=
  { g with notifications := tickNotifications g.notifications delta }

/-- One invocation of the `onFrameRender` callback from `beginRender`:
given the captured `lastTimestamp` and the current game state, returns the
new `lastTimestamp`, the new game state, and whether the callback requested
another animation frame.  The source requests the next frame
unconditionally on both paths, with no terminal-state guard. -/
def onFrameRender (lastTimestamp : Option ℚ) (g : GameState) (timestamp : ℚ) :
    Option ℚ × GameState × Bool :=
  match lastTimestamp with
  | none => (some timestamp, g, true)
  | some last => (some timestamp, renderFrameState g ((timestamp - last) / 1000), true)

/-! ## The rate-limited coalescing sender (`class Debouncer`)

The sender is embedded as an explicit transition system.  A state carries
the four fields of the class; `pendingDue` additionally records whether a
`setTimeout` callback is armed and for when — the source's `this.timer`
field is the *handle*, which the code never resets after the callback
runs, so it is modelled separately as `timerSet`.  Events are `send` and
`changeInterval` calls (timestamped by `new Date().getTime()`) and the
firing of an armed timeout.  Dispatches through `doSend` are returned as
`(time, value)` pairs, and scheduling events (`setTimeout` calls) are
counted.  Real executions are the event lists with nondecreasing times in
which `fire now` occurs only when a callback is armed and `now` is at or
after its due time; the theorems below either hold for all event lists or
are instantiated on such realistic traces. -/

structure DState (T : Type) where
  intervalMs : Int
  lastMs : Int
  lastValue : Option T
  /-- `this.timer !== null`; set when `setTimeout` is called, never cleared. -/
  timerSet : Bool
  /-- due time of an armed, not-yet-fired `setTimeout` callback, if any. -/
  pendingDue : Option Int
deriving DecidableEq, Repr

inductive DEvent (T : Type) where
  | send (now : Int) (v : T)
  | changeInterval (newIntervalMs : Int)
  | fire (now : Int)
deriving DecidableEq, Repr

/-- The state constructed by `new Debouncer(intervalMs, doSend)` at wall
time `t0`: `lastMs = t0`, no last value, no timer. -/
def initD (T : Type) (intervalMs t0 : Int) : DState T :=
  ⟨intervalMs, t0, none, false, none⟩

/-- One event of the sender.  Returns the new state, the dispatches made
during the event, and how many `setTimeout` calls it performed. -/
def stepD {T : Type} (s : DState T) : DEvent T → DState T × List (Int × T) × Nat
  | .send now v =>
      let timeLeftMs := s.intervalMs - (now - s.lastMs)
      if timeLeftMs ≤ 0 then
        ({ s with lastMs := now }, [(now, v)], 0)
      else if s.timerSet then
        ({ s with lastValue := some v }, [], 0)
      else
        ({ s with lastValue := some v, timerSet := true,
                  pendingDue := some (now + timeLeftMs) }, [], 1)
  | .changeInterval n => ({ s with intervalMs := n }, [], 0)
  | .fire now =>
      match s.pendingDue with
      | none => (s, [], 0)
      | some _ =>
          -- the callback body is only `this.doSend(this.lastValue!)`:
          -- it neither clears `this.timer` nor updates `this.lastMs`.
          ({ s with pendingDue := none },
            s.lastValue.elim [] (fun v => [(now, v)]), 0)

/-- Run a list of events, accumulating dispatches and `setTimeout` counts. -/
def runD {T : Type} : DState T → List (DEvent T) → DState T × List (Int × T) × Nat
  | s, [] => (s, [], 0)
  | s, e :: es =>
      let r := stepD s e
      let rest := runD r.1 es
      (rest.1, r.2.1 ++ rest.2.1, r.2.2 + rest.2.2)

/-! ## The scoreboard projection (`renderFrame`, scoreboard block, and
`keyToCmp`)

`[...players.values()].sort(keyToCmp(p => p.id)).sort(keyToCmp(p => -p.score)).slice(0, 5)`.
`keyToCmp key` compares `key a` and `key b` with `-1/0/1`, so
`Array.prototype.sort` (stable per ECMA-262) sorts ascending by the key;
the stable sort w.r.t. this total preorder is modelled by the stable
insertion sort `ssort` below. -/

/-- Stable insertion of `x` into `l`: `x` goes in front of the first
element it compares `le` to, after every element strictly smaller. -/
def sinsert {α : Type} (le : α → α → Bool) (x : α) : List α → List α
  | [] => [x]
  | y :: t => if le x y then x :: y :: t else y :: sinsert le x t

/-- Stable insertion sort. -/
def ssort {α : Type} (le : α → α → Bool) : List α → List α
  | [] => []
  | x :: t => sinsert le x (ssort le t)

/-- `array.sort(keyToCmp(key))` for an integer-valued key function. -/
def jsSortByKey (key : Player → Int) (l : List Player) : List Player :=
  ssort (fun a b => decide (key a ≤ key b)) l

/-- The scoreboard block of `renderFrame`: sort ascending by id, then
(stably) ascending by negated score, then `slice(0, 5)`. -/
def scoreboardPlayers (l : List Player) : List Player :=
  ((jsSortByKey (fun p => p.id) l) |> jsSortByKey (fun p => -p.score)).take 5

/-- Modelled from the spec: the composite scoreboard order of §4.5 —
primary key descending score, secondary key ascending id for ties. -/
def compositeR (a b : Player) : Prop :=
  b.score < a.score ∨ (b.score = a.score ∧ a.id ≤ b.id)

/-- The comparator of the first scoreboard sort (`keyToCmp(p => p.id)`). -/
def leId (a b : Player) : Bool := decide (a.id ≤ b.id)

/-- The comparator of the second scoreboard sort (`keyToCmp(p => -p.score)`). -/
def leNs (a b : Player) : Bool := decide (-a.score ≤ -b.score)

/-! ## Association-list lemmas -/

section JsMapLemmas

variable {V : Type}

theorem containsKey_false_forall {m : List (Int × V)} {k : Int}
    (h : containsKey m k = false) : ∀ q ∈ m, q.1 ≠ k := by
  intro q hq
  have := List.any_eq_false.mp h q hq
  simpa using this

theorem containsKey_cons {q : Int × V} {t : List (Int × V)} {k : Int} :
    containsKey (q :: t) k = (q.1 == k || containsKey t k) := by
  simp [containsKey]

theorem mapGet_cons {q : Int × V} {t : List (Int × V)} {k : Int} :
    mapGet (q :: t) k = if q.1 == k then some q.2 else mapGet t k := by
  by_cases h : q.1 = k <;> simp [mapGet, h]

theorem mapSet_present {m : List (Int × V)} {k : Int} {v : V}
    (h : containsKey m k = true) : mapSet m k v = setInPlace m k v := by
  unfold mapSet
  rw [if_pos h]

theorem mapSet_absent {m : List (Int × V)} {k : Int} {v : V}
    (h : containsKey m k = false) : mapSet m k v = m ++ [(k, v)] := by
  unfold mapSet
  rw [if_neg (by simp [h])]

theorem setInPlace_cons {q : Int × V} {t : List (Int × V)} {k : Int} {v : V} :
    setInPlace (q :: t) k v
      = (if q.1 == k then (k, v) else q) :: setInPlace t k v := by
  simp [setInPlace]

theorem containsKey_setInPlace {m : List (Int × V)} {k k' : Int} {v : V} :
    containsKey (setInPlace m k v) k' = containsKey m k' := by
  induction m with
  | nil => rfl
  | cons q t ih =>
      rw [setInPlace_cons, containsKey_cons, containsKey_cons, ih]
      by_cases hq : q.1 = k <;> simp [hq]

theorem mapGet_eq_none_iff {m : List (Int × V)} {k : Int} :
    mapGet m k = none ↔ ∀ q ∈ m, q.1 ≠ k := by
  unfold mapGet
  simp

theorem mapGet_setInPlace_self {m : List (Int × V)} {k : Int} {v : V}
    (h : containsKey m k = true) : mapGet (setInPlace m k v) k = some v := by
  induction m with
  | nil => simp [containsKey] at h
  | cons q t ih =>
      rw [setInPlace_cons, mapGet_cons]
      by_cases hq : q.1 = k
      · simp [hq]
      · rw [containsKey_cons] at h
        have ht : containsKey t k = true := by
          rcases Bool.or_eq_true_iff.mp h with h1 | h1
          · exact absurd (by simpa using h1) hq
          · exact h1
        simpa [hq] using ih ht

theorem mapGet_setInPlace_other {m : List (Int × V)} {k k' : Int} {v : V}
    (h : k' ≠ k) : mapGet (setInPlace m k v) k' = mapGet m k' := by
  induction m with
  | nil => rfl
  | cons q t ih =>
      rw [setInPlace_cons, mapGet_cons, mapGet_cons]
      by_cases hq : q.1 = k
      · simp only [hq, beq_self_eq_true, if_true]
        have h1 : ¬ ((k : Int) == k') = true := by simpa using Ne.symm h
        rw [if_neg h1, if_neg h1]
        exact ih
      · have hq' : (if (q.1 == k) = true then (k, v) else q) = q := by simp [hq]
        rw [hq']
        by_cases hk' : q.1 = k'
        · rw [if_pos (by simpa using hk'), if_pos (by simpa using hk')]
        · rw [if_neg (by simpa using hk'), if_neg (by simpa using hk')]
          exact ih

theorem setInPlace_setInPlace_same {m : List (Int × V)} {k : Int} {v w : V} :
    setInPlace (setInPlace m k v) k w = setInPlace m k w := by
  unfold setInPlace
  rw [List.map_map]
  apply List.map_congr_left
  intro q _
  by_cases hq : q.1 = k <;> simp [hq]

theorem setInPlace_id {m : List (Int × V)} {k : Int} {v : V}
    (h : ∀ q ∈ m, q.1 ≠ k) : setInPlace m k v = m := by
  unfold setInPlace
  have : m.map (fun q => if q.1 == k then (k, v) else q) = m.map id :=
    List.map_congr_left (fun q hq => by simp [h q hq])
  simpa using this

theorem mapGet_append_single_self {m : List (Int × V)} {k : Int} {v : V}
    (h : ∀ q ∈ m, q.1 ≠ k) : mapGet (m ++ [(k, v)]) k = some v := by
  unfold mapGet
  rw [List.find?_append]
  have h1 : List.find? (fun q => q.1 == k) m = none :=
    List.find?_eq_none.mpr (fun q hq => by simpa using h q hq)
  rw [h1]
  simp

theorem mapGet_mapSet_self {m : List (Int × V)} {k : Int} {v : V} :
    mapGet (mapSet m k v) k = some v := by
  by_cases h : containsKey m k
  · rw [mapSet_present h]
    exact mapGet_setInPlace_self h
  · rw [mapSet_absent (by simpa using h)]
    exact mapGet_append_single_self (containsKey_false_forall (by simpa using h))

theorem mapGet_mapSet_other {m : List (Int × V)} {k k' : Int} {v : V}
    (h : k' ≠ k) : mapGet (mapSet m k v) k' = mapGet m k' := by
  by_cases hc : containsKey m k
  · rw [mapSet_present hc]
    exact mapGet_setInPlace_other h
  · rw [mapSet_absent (by simpa using hc)]
    unfold mapGet
    rw [List.find?_append]
    have hkf : ((k : Int) == k') = false := by simpa using Ne.symm h
    have : List.find? (fun q => q.1 == k') [(k, v)] = none := by
      simp [List.find?, hkf]
    rw [this]
    simp

theorem length_mapSet_present {m : List (Int × V)} {k : Int} {v : V}
    (h : containsKey m k = true) : (mapSet m k v).length = m.length := by
  rw [mapSet_present h]
  unfold setInPlace
  exact List.length_map _ _

/-- Re-setting the same key overwrites: `m.set(k, v); m.set(k, w)` is
`m.set(k, w)`. -/
theorem mapSet_mapSet_same {m : List (Int × V)} {k : Int} {v w : V} :
    mapSet (mapSet m k v) k w = mapSet m k w := by
  by_cases h : containsKey m k
  · have h1 : containsKey (mapSet m k v) k = true := by
      rw [mapSet_present h, containsKey_setInPlace]
      exact h
    rw [mapSet_present h1, mapSet_present h, mapSet_present h]
    exact setInPlace_setInPlace_same
  · have hall := containsKey_false_forall (show containsKey m k = false by simpa using h)
    have h0 := mapSet_absent (m := m) (k := k) (v := v) (by simpa using h)
    have h1 : containsKey (mapSet m k v) k = true := by
      rw [h0, containsKey]
      simp
    rw [mapSet_present h1, h0,
        mapSet_absent (show containsKey m k = false by simpa using h)]
    have hsplit : setInPlace (m ++ [(k, v)]) k w
        = setInPlace m k w ++ setInPlace [(k, v)] k w := by
      unfold setInPlace
      exact List.map_append _ _ _
    rw [hsplit, setInPlace_id hall]
    simp [setInPlace]

theorem mapGet_mapDelete_self {m : List (Int × V)} {k : Int} :
    mapGet (mapDelete m k) k = none := by
  rw [mapGet_eq_none_iff]
  intro q hq
  have := (List.mem_filter.mp hq).2
  simpa using this

theorem mapDelete_mapDelete {m : List (Int × V)} {k : Int} :
    mapDelete (mapDelete m k) k = mapDelete m k := by
  unfold mapDelete
  rw [List.filter_filter]
  apply List.filter_congr
  intro q _
  by_cases h : q.1 = k <;> simp [h]

theorem mapGet_mapUpdate_self {m : List (Int × V)} {k : Int} {f : V → V} :
    mapGet (mapUpdate m k f) k = (mapGet m k).map f := by
  induction m with
  | nil => simp [mapGet, mapUpdate]
  | cons q t ih =>
      by_cases hq : q.1 = k
      · simp [mapGet, mapUpdate, hq]
      · simpa [mapGet, mapUpdate, hq] using ih

theorem mapUpdate_mapUpdate {m : List (Int × V)} {k : Int} {f g : V → V} :
    mapUpdate (mapUpdate m k f) k g = mapUpdate m k (g ∘ f) := by
  unfold mapUpdate
  rw [List.map_map]
  apply List.map_congr_left
  intro q _
  by_cases hq : q.1 = k <;> simp [hq]

end JsMapLemmas

/-! ## Replay lemmas for the snapshot player fold -/

/-- The last value a fold of `mapSet`s over `ps` writes at key `k`, if any. -/
def lastVal? : List PlayerIntro → Int → Option Player
  | [], _ => none
  | p :: rest, k =>
      match lastVal? rest k with
      | some v => some v
      | none => if p.id == k then some (introToPlayer p) else none

/-- Overwrite each entry of `m` whose key `ps` writes to with the last
value `ps` writes there. -/
def overrideLast (m : List (Int × Player)) (ps : List PlayerIntro) : List (Int × Player) :=
  m.map (fun q =>
    match lastVal? ps q.1 with
    | some v => (q.1, v)
    | none => q)

theorem setMany_nil {m : List (Int × Player)} : setMany m [] = m := rfl

theorem setMany_cons {m : List (Int × Player)} {p : PlayerIntro} {ps : List PlayerIntro} :
    setMany m (p :: ps) = setMany (mapSet m p.id (introToPlayer p)) ps := rfl

theorem lastVal?_eq_none {ps : List PlayerIntro} {k : Int}
    (h : lastVal? ps k = none) : ∀ p ∈ ps, p.id ≠ k := by
  induction ps with
  | nil => intro p hp; simp at hp
  | cons p rest ih =>
      intro r hr
      unfold lastVal? at h
      cases hl : lastVal? rest k with
      | some v => rw [hl] at h; simp at h
      | none =>
          rw [hl] at h
          rcases List.mem_cons.mp hr with h1 | h1
          · subst h1
            intro hk
            rw [if_pos (by simpa using hk)] at h
            simp at h
          · exact ih hl r h1

theorem containsKey_mapSet {V : Type} {m : List (Int × V)} {k k' : Int} {v : V} :
    containsKey (mapSet m k v) k' = (containsKey m k' || (k == k')) := by
  by_cases hc : containsKey m k
  · rw [mapSet_present hc, containsKey_setInPlace]
    by_cases hk : k = k'
    · subst hk
      simp [hc]
    · simp [hk]
  · rw [mapSet_absent (by simpa using hc)]
    unfold containsKey
    simp [List.any_append]

theorem containsKey_setMany {m : List (Int × Player)} {ps : List PlayerIntro} {k : Int} :
    containsKey (setMany m ps) k
      = (containsKey m k || ps.any (fun p => p.id == k)) := by
  induction ps generalizing m with
  | nil => simp [setMany_nil]
  | cons p rest ih =>
      rw [setMany_cons, ih, containsKey_mapSet, List.any_cons]
      rw [Bool.or_assoc]

/-- Membership in `mapSet m k v`: the written entry, or an untouched entry
of `m` at a different key. -/
theorem mem_mapSet_cases {V : Type} {m : List (Int × V)} {k : Int} {v : V}
    {q : Int × V} (h : q ∈ mapSet m k v) :
    q = (k, v) ∨ (q ∈ m ∧ q.1 ≠ k) := by
  by_cases hc : containsKey m k
  · rw [mapSet_present hc] at h
    unfold setInPlace at h
    obtain ⟨q0, hq0, hfq⟩ := List.mem_map.mp h
    by_cases hk : q0.1 = k
    · left
      rw [← hfq]
      simp [hk]
    · right
      have hq0q : q0 = q := by
        rw [← hfq]
        simp [hk]
      exact ⟨hq0q ▸ hq0, hq0q ▸ hk⟩
  · rw [mapSet_absent (by simpa using hc)] at h
    rcases List.mem_append.mp h with h1 | h1
    · right
      exact ⟨h1, containsKey_false_forall (by simpa using hc) q h1⟩
    · left
      simpa using h1

/-- Keys never written by `ps` keep exactly their entries of `m`. -/
theorem mem_setMany_untouched {m : List (Int × Player)} {ps : List PlayerIntro} {k : Int}
    (hnone : ∀ r ∈ ps, r.id ≠ k) :
    ∀ q ∈ setMany m ps, q.1 = k → q ∈ m := by
  induction ps generalizing m with
  | nil => intro q hq _; simpa [setMany_nil] using hq
  | cons p rest ih =>
      intro q hq hk
      rw [setMany_cons] at hq
      have h1 : q ∈ mapSet m p.id (introToPlayer p) :=
        ih (fun r hr => hnone r (by simp [hr])) q hq hk
      rcases mem_mapSet_cases h1 with h2 | h2
      · exfalso
        apply hnone p (by simp)
        rw [← hk, h2]
      · exact h2.1

/-- Every entry of `setMany m ps` at a key `ps` writes carries the last
written value. -/
theorem mem_setMany_lastVal {m : List (Int × Player)} {ps : List PlayerIntro}
    {q : Int × Player} {v : Player}
    (hq : q ∈ setMany m ps) (hl : lastVal? ps q.1 = some v) : q = (q.1, v) := by
  induction ps generalizing m with
  | nil => simp [lastVal?] at hl
  | cons p rest ih =>
      rw [setMany_cons] at hq
      unfold lastVal? at hl
      cases hrest : lastVal? rest q.1 with
      | some w =>
          rw [hrest] at hl
          simp only [Option.some.injEq] at hl
          subst hl
          exact ih hq hrest
      | none =>
          rw [hrest] at hl
          by_cases hk : p.id = q.1
          · rw [if_pos (by simpa using hk)] at hl
            simp only [Option.some.injEq] at hl
            have h1 : q ∈ mapSet m p.id (introToPlayer p) :=
              mem_setMany_untouched (lastVal?_eq_none hrest) q hq rfl
            rcases mem_mapSet_cases h1 with h2 | h2
            · rw [h2, ← hl]
            · exact absurd hk.symm h2.2
          · rw [if_neg (by simpa using hk)] at hl
            simp at hl

/-- A `setMany` over keys all present in `m` is the pointwise override of
`m` with the last values written. -/
theorem setMany_eq_overrideLast {m : List (Int × Player)} {ps : List PlayerIntro}
    (hcov : ∀ p ∈ ps, containsKey m p.id = true) :
    setMany m ps = overrideLast m ps := by
  induction ps generalizing m with
  | nil =>
      rw [setMany_nil]
      unfold overrideLast
      symm
      have : m.map (fun q =>
          match lastVal? [] q.1 with
          | some v => (q.1, v)
          | none => q) = m.map id :=
        List.map_congr_left (fun q _ => by simp [lastVal?])
      simpa using this
  | cons p rest ih =>
      rw [setMany_cons,
          mapSet_present (hcov p (by simp)),
          ih (fun r hr => by
            rw [containsKey_setInPlace]
            exact hcov r (by simp [hr]))]
      unfold overrideLast setInPlace
      rw [List.map_map]
      apply List.map_congr_left
      intro q _
      by_cases hq : q.1 = p.id
      · simp only [Function.comp, hq, beq_self_eq_true, if_true]
        cases hl : lastVal? rest p.id with
        | some v => simp [lastVal?, hq, hl]
        | none => simp [lastVal?, hq, hl]
      · simp only [Function.comp, if_neg (show ¬ ((q.1 == p.id) = true) by simpa using hq)]
        cases hl : lastVal? rest q.1 with
        | some v => simp [lastVal?, hl]
        | none =>
            have hne : ¬ p.id = q.1 := fun hh => hq hh.symm
            simp [lastVal?, hl, hne]

/-- Overriding the result of a `setMany` with its own last values changes
nothing. -/
theorem overrideLast_setMany {m : List (Int × Player)} {ps : List PlayerIntro} :
    overrideLast (setMany m ps) ps = setMany m ps := by
  unfold overrideLast
  have : (setMany m ps).map (fun q =>
      match lastVal? ps q.1 with
      | some v => (q.1, v)
      | none => q) = (setMany m ps).map id := by
    apply List.map_congr_left
    intro q hq
    cases hl : lastVal? ps q.1 with
    | some v => simpa using (mem_setMany_lastVal hq hl).symm
    | none => rfl
  simpa using this

/-- Replaying the player list of a `world_snapshot` leaves the player map
unchanged. -/
theorem setMany_setMany {m : List (Int × Player)} {ps : List PlayerIntro} :
    setMany (setMany m ps) ps = setMany m ps := by
  rw [setMany_eq_overrideLast (fun p hp => by
    rw [containsKey_setMany]
    have : ps.any (fun r => r.id == p.id) = true :=
      List.any_eq_true.mpr ⟨p, hp, by simp⟩
    simp [this])]
  exact overrideLast_setMany

/-! ## Stable-sort lemmas -/

section SortLemmas

variable {α : Type} (le : α → α → Bool)

theorem sinsert_perm (x : α) (l : List α) : sinsert le x l ~ x :: l := by
  induction l with
  | nil => exact List.Perm.refl _
  | cons y t ih =>
      unfold sinsert
      by_cases h : le x y
      · rw [if_pos h]
      · rw [if_neg h]
        exact (List.Perm.cons y ih).trans (List.Perm.swap x y t)

theorem ssort_perm (l : List α) : ssort le l ~ l := by
  induction l with
  | nil => exact List.Perm.refl _
  | cons x t ih =>
      unfold ssort
      exact (sinsert_perm le x (ssort le t)).trans (List.Perm.cons x ih)

theorem sinsert_pairwise
    (htrans : ∀ a b c, le a b = true → le b c = true → le a c = true)
    (htot : ∀ a b, le a b = true ∨ le b a = true)
    {x : α} {l : List α} (h : l.Pairwise (fun a b => le a b = true)) :
    (sinsert le x l).Pairwise (fun a b => le a b = true) := by
  induction l with
  | nil => simp [sinsert]
  | cons y t ih =>
      unfold sinsert
      obtain ⟨hall, ht⟩ := List.pairwise_cons.mp h
      by_cases hxy : le x y
      · rw [if_pos hxy]
        apply List.Pairwise.cons
        · intro b hb
          rcases List.mem_cons.mp hb with rfl | hb
          · exact hxy
          · exact htrans x y b hxy (hall b hb)
        · exact h
      · rw [if_neg hxy]
        have hyx : le y x = true := (htot x y).resolve_left (by simpa using hxy)
        apply List.Pairwise.cons
        · intro b hb
          have hb2 : b ∈ x :: t := (sinsert_perm le x t).mem_iff.mp hb
          rcases List.mem_cons.mp hb2 with rfl | hb2
          · exact hyx
          · exact hall b hb2
        · exact ih ht

theorem ssort_pairwise
    (htrans : ∀ a b c, le a b = true → le b c = true → le a c = true)
    (htot : ∀ a b, le a b = true ∨ le b a = true)
    (l : List α) : (ssort le l).Pairwise (fun a b => le a b = true) := by
  induction l with
  | nil => simp [ssort]
  | cons x t ih =>
      unfold ssort
      exact sinsert_pairwise le htrans htot ih

theorem sublist_sinsert {c l : List α} (x : α) (h : c <+ l) :
    c <+ sinsert le x l := by
  induction l generalizing c with
  | nil =>
      cases h
      exact List.nil_sublist _
  | cons y t ih =>
      unfold sinsert
      by_cases hxy : le x y
      · rw [if_pos hxy]
        exact h.cons x
      · rw [if_neg hxy]
        cases h with
        | cons _ h1 => exact (ih h1).cons y
        | cons₂ _ h1 => exact (ih h1).cons₂ y

theorem pair_sublist_sinsert {a b : α} {l : List α} (hab : le a b = true)
    (hb : b ∈ l) (hl : l.Pairwise (fun p q => le p q = true)) :
    [a, b] <+ sinsert le a l := by
  induction l with
  | nil => simp at hb
  | cons y t ih =>
      unfold sinsert
      by_cases hay : le a y
      · rw [if_pos hay]
        exact (List.singleton_sublist.mpr hb).cons₂ a
      · rw [if_neg hay]
        rcases List.mem_cons.mp hb with rfl | hbt
        · exact absurd hab (by simpa using hay)
        · exact (ih hbt (List.pairwise_cons.mp hl).2).cons y

/-- Stability of the insertion sort: an already-ordered pair keeps its
relative order. -/
theorem pair_sublist_ssort
    (htrans : ∀ a b c, le a b = true → le b c = true → le a c = true)
    (htot : ∀ a b, le a b = true ∨ le b a = true)
    {a b : α} {l : List α} (hab : le a b = true) (h : [a, b] <+ l) :
    [a, b] <+ ssort le l := by
  induction l with
  | nil => cases h
  | cons y t ih =>
      unfold ssort
      cases h with
      | cons _ h1 => exact sublist_sinsert le y (ih h1)
      | cons₂ _ h1 =>
          exact pair_sublist_sinsert le hab
            ((ssort_perm le t).mem_iff.mpr (List.singleton_sublist.mp h1))
            (ssort_pairwise le htrans htot t)

theorem pair_or_pair_of_mem {β : Type} [DecidableEq β] {a b : β} {l : List β}
    (ha : a ∈ l) (hb : b ∈ l) (hne : a ≠ b) :
    [a, b] <+ l ∨ [b, a] <+ l := by
  induction l with
  | nil => simp at ha
  | cons x t ih =>
      by_cases hxa : x = a
      · subst hxa
        have hbt : b ∈ t := by
          rcases List.mem_cons.mp hb with rfl | h1
          · exact absurd rfl hne
          · exact h1
        exact Or.inl ((List.singleton_sublist.mpr hbt).cons₂ x)
      · by_cases hxb : x = b
        · subst hxb
          have hat : a ∈ t := by
            rcases List.mem_cons.mp ha with rfl | h1
            · exact absurd rfl hne
            · exact h1
          exact Or.inr ((List.singleton_sublist.mpr hat).cons₂ x)
        · have hat : a ∈ t := (List.mem_cons.mp ha).resolve_left (fun hh => hxa hh.symm)
          have hbt : b ∈ t := (List.mem_cons.mp hb).resolve_left (fun hh => hxb hh.symm)
          rcases ih hat hbt with h1 | h1
          · exact Or.inl (h1.cons x)
          · exact Or.inr (h1.cons x)

theorem not_both_pair_sublists {β : Type} {a b : β} {l : List β}
    (hnd : l.Nodup) (hne : a ≠ b)
    (h1 : [a, b] <+ l) (h2 : [b, a] <+ l) : False := by
  induction l with
  | nil => cases h1
  | cons x t ih =>
      have hx : x ∉ t := (List.nodup_cons.mp hnd).1
      have hndt : t.Nodup := (List.nodup_cons.mp hnd).2
      cases h1 with
      | cons _ h1 =>
          cases h2 with
          | cons _ h2 => exact ih hndt h1 h2
          | cons₂ _ h2 =>
              exact hx (h1.subset (by simp))
      | cons₂ _ h1 =>
          cases h2 with
          | cons _ h2 =>
              exact hx (h2.subset (by simp))
          | cons₂ _ h2 => exact hne rfl

end SortLemmas

/-! ## The scoreboard order -/

theorem leId_trans : ∀ a b c, leId a b = true → leId b c = true → leId a c = true := by
  intro a b c hab hbc
  simp only [leId, decide_eq_true_eq] at *
  omega

theorem leId_total : ∀ a b, leId a b = true ∨ leId b a = true := by
  intro a b
  simp only [leId, decide_eq_true_eq]
  omega

theorem leNs_trans : ∀ a b c, leNs a b = true → leNs b c = true → leNs a c = true := by
  intro a b c hab hbc
  simp only [leNs, decide_eq_true_eq] at *
  omega

theorem leNs_total : ∀ a b, leNs a b = true ∨ leNs b a = true := by
  intro a b
  simp only [leNs, decide_eq_true_eq]
  omega

/-- The double stable sort of the scoreboard orders players by descending
score with ascending ids among equal scores, provided ids are distinct. -/
theorem double_sort_pairwise_composite (l : List Player)
    (h : (l.map (fun p => p.id)).Nodup) :
    (ssort leNs (ssort leId l)).Pairwise compositeR := by
  have hndl : l.Nodup := List.Nodup.of_map _ h
  have hinj := List.inj_on_of_nodup_map h
  have hnd1 : (ssort leId l).Nodup := ((ssort_perm leId l).symm).nodup hndl
  have hnd2 : (ssort leNs (ssort leId l)).Nodup :=
    ((ssort_perm leNs (ssort leId l)).symm).nodup hnd1
  rw [List.pairwise_iff_forall_sublist]
  intro a b hab2
  have hns : leNs a b = true :=
    List.pairwise_iff_forall_sublist.mp
      (ssort_pairwise leNs leNs_trans leNs_total (ssort leId l)) hab2
  have hscore : b.score ≤ a.score := by
    simpa [leNs] using hns
  rcases lt_or_eq_of_le hscore with hlt | heq
  · exact Or.inl hlt
  · refine Or.inr ⟨heq, ?_⟩
    by_contra hid
    have hid2 : b.id < a.id := by omega
    have hmem2 := hab2.subset
    have ha2 : a ∈ ssort leNs (ssort leId l) := hmem2 (by simp)
    have hb2 : b ∈ ssort leNs (ssort leId l) := hmem2 (by simp)
    have ha1 : a ∈ ssort leId l := (ssort_perm leNs (ssort leId l)).mem_iff.mp ha2
    have hb1 : b ∈ ssort leId l := (ssort_perm leNs (ssort leId l)).mem_iff.mp hb2
    have hne : a ≠ b := fun hh => by
      rw [hh] at hid2
      omega
    rcases pair_or_pair_of_mem ha1 hb1 hne with hp | hp
    · have : leId a b = true :=
        List.pairwise_iff_forall_sublist.mp
          (ssort_pairwise leId leId_trans leId_total l) hp
      have : a.id ≤ b.id := by simpa [leId] using this
      omega
    · have hba : leNs b a = true := by
        simp only [leNs, decide_eq_true_eq]
        omega
      have hp2 : [b, a] <+ ssort leNs (ssort leId l) :=
        pair_sublist_ssort leNs leNs_trans leNs_total hba hp
      exact not_both_pair_sublists hnd2 hne hab2 hp2

/-! ## Debouncer trace lemmas -/

/-- Each event either schedules nothing and keeps the timer flag, or is the
unique flag-raising `setTimeout` call. -/
theorem stepD_sched {T : Type} (s : DState T) (e : DEvent T) :
    ((stepD s e).2.2 = 0 ∧ (stepD s e).1.timerSet = s.timerSet) ∨
    ((stepD s e).2.2 = 1 ∧ s.timerSet = false ∧ (stepD s e).1.timerSet = true) := by
  cases e with
  | send now v =>
      by_cases htl : s.intervalMs - (now - s.lastMs) ≤ 0
      · left
        simp [stepD, htl]
      · by_cases hts : s.timerSet
        · left
          simp [stepD, htl, hts]
        · right
          simp [stepD, htl, hts]
  | changeInterval n =>
      left
      simp [stepD]
  | fire now =>
      left
      cases h : s.pendingDue <;> simp [stepD, h]

/-- Over any event list, `setTimeout` is called at most once in the whole
lifetime of the sender (and never once the timer flag is set): the source
never resets `this.timer` to `null`. -/
theorem runD_sched_le {T : Type} :
    ∀ (es : List (DEvent T)) (s : DState T),
      (runD s es).2.2 ≤ if s.timerSet then 0 else 1 := by
  intro es
  induction es with
  | nil =>
      intro s
      simp [runD]
  | cons e es ih =>
      intro s
      have hrw : (runD s (e :: es)).2.2
          = (stepD s e).2.2 + (runD (stepD s e).1 es).2.2 := rfl
      rcases stepD_sched s e with ⟨h0, hts⟩ | ⟨h1, hf, ht⟩
      · have hrec := ih (stepD s e).1
        rw [hts] at hrec
        rw [hrw, h0]
        simpa using hrec
      · have hrec := ih (stepD s e).1
        rw [ht] at hrec
        have hrec2 : (runD (stepD s e).1 es).2.2 = 0 := by simpa using hrec
        rw [hrw, h1, hf]
        simp [hrec2]

/-! ## Claim theorems -/

/-- C1: the claim says that from every reachable sender state — including
after a deferred dispatch has fired — a sequence of `send`s made strictly
within one interval window produces exactly one dispatch, carrying the last
value, no earlier than `interval` after the previous actual dispatch.  The
code violates this: the `setTimeout` callback neither clears `this.timer`
nor updates `this.lastMs`, so with interval 200 constructed at t=0,
`send 1`@50 arms a timer, it fires at 200 dispatching 1; `send 2`@250
then dispatches immediately only 50ms after the previous dispatch; and the
within-window `send 3`@300 and `send 4`@350 dispatch nothing at all, with
no timer armed (`pendingDue = none`), so value 4 is lost forever: a later
`fire` delivers nothing. -/
theorem debouncer_window_dispatch_lost :
    runD (initD Int 200 0)
        [.send 50 1, .fire 200, .send 250 2, .send 300 3, .send 350 4]
      = (⟨200, 250, some 4, true, none⟩, [(200, 1), (250, 2)], 1) ∧
    (∀ t : Int,
      (stepD (⟨200, 250, some 4, true, none⟩ : DState Int) (.fire t)).2.1 = []) ∧
    (250 : Int) - 200 < 200 := by
  refine ⟨rfl, fun t => rfl, by norm_num⟩

/-- C2 counterexample: a `send` made while a deferred dispatch is pending
does NOT always overwrite the pending value.  With interval 200 constructed
at t=0: `send 1`@50 arms the timer (due 200); `changeInterval 25` (the
mousedown path of the game); `send 2`@100 — made while the deferred
dispatch is pending — dispatches 2 immediately and leaves the pending
value at 1, so the timer fires at 200 delivering 1, not the most recent
value 2. -/
theorem debouncer_pending_not_overwritten :
    (runD (initD Int 200 0) [.send 50 1, .changeInterval 25]).1.pendingDue
      = some 200 ∧
    stepD (runD (initD Int 200 0) [.send 50 1, .changeInterval 25]).1 (.send 100 2)
      = (⟨25, 100, some 1, true, some 200⟩, [(100, 2)], 0) ∧
    (stepD (⟨25, 100, some 1, true, some 200⟩ : DState Int) (.fire 200)).2.1
      = [(200, 1)] ∧
    (1 : Int) ≠ 2 := by
  refine ⟨rfl, rfl, rfl, by norm_num⟩

/-- C2 amended: a `send` made while a deferred dispatch is pending *and
the interval has not yet elapsed* overwrites the pending value, performs
no `setTimeout` call and leaves the single pending dispatch in place, and
that dispatch, when it fires, delivers this latest value; moreover at most
one `setTimeout` is ever performed over any event sequence (so at most one
deferred dispatch is outstanding at any time).  A `send` made while
pending but after the (possibly shrunk) interval has elapsed instead
dispatches immediately without touching the pending value.  The
`timerSet = true` hypothesis holds in every reachable state with a pending
dispatch, since only the scheduling branch sets `pendingDue` and it also
sets `timerSet`. -/
theorem debouncer_pending_send_coalesces (s : DState Int) (d now v : Int)
    (hts : s.timerSet = true) (hp : s.pendingDue = some d)
    (hrl : 0 < s.intervalMs - (now - s.lastMs)) :
    (stepD s (.send now v)).2.1 = [] ∧
    (stepD s (.send now v)).2.2 = 0 ∧
    (stepD s (.send now v)).1.pendingDue = some d ∧
    (stepD s (.send now v)).1.lastValue = some v ∧
    (∀ t : Int, (stepD (stepD s (.send now v)).1 (.fire t)).2.1 = [(t, v)]) ∧
    (∀ (es : List (DEvent Int)) (s0 : DState Int), (runD s0 es).2.2 ≤ 1) := by
  have hneg : ¬ (s.intervalMs - (now - s.lastMs) ≤ 0) := by omega
  refine ⟨?_, ?_, ?_, ?_, ?_, ?_⟩
  · simp [stepD, hneg, hts]
  · simp [stepD, hneg, hts]
  · simp [stepD, hneg, hts, hp]
  · simp [stepD, hneg, hts]
  · intro t
    simp [stepD, hneg, hts, hp]
  · intro es s0
    have h := runD_sched_le es s0
    cases hts0 : s0.timerSet <;> rw [hts0] at h <;> simp at h <;> omega

/-- Witness for the C2 amended theorem at a concrete reachable state. -/
theorem debouncer_pending_send_coalesces_witness :
    ((⟨200, 0, some 5, true, some 200⟩ : DState Int).timerSet = true ∧
      (⟨200, 0, some 5, true, some 200⟩ : DState Int).pendingDue = some 200 ∧
      0 < (⟨200, 0, some 5, true, some 200⟩ : DState Int).intervalMs -
        (100 - (⟨200, 0, some 5, true, some 200⟩ : DState Int).lastMs)) ∧
    ((stepD (⟨200, 0, some 5, true, some 200⟩ : DState Int) (.send 100 7)).2.1 = [] ∧
      (stepD (⟨200, 0, some 5, true, some 200⟩ : DState Int) (.send 100 7)).2.2 = 0 ∧
      (stepD (⟨200, 0, some 5, true, some 200⟩ : DState Int) (.send 100 7)).1.pendingDue
        = some 200 ∧
      (stepD (⟨200, 0, some 5, true, some 200⟩ : DState Int) (.send 100 7)).1.lastValue
        = some 7 ∧
      (∀ t : Int,
        (stepD (stepD (⟨200, 0, some 5, true, some 200⟩ : DState Int) (.send 100 7)).1
          (.fire t)).2.1 = [(t, 7)]) ∧
      (∀ (es : List (DEvent Int)) (s0 : DState Int), (runD s0 es).2.2 ≤ 1)) :=
  ⟨⟨rfl, rfl, by norm_num⟩,
    debouncer_pending_send_coalesces ⟨200, 0, some 5, true, some 200⟩ 200 100 7
      rfl rfl (by norm_num)⟩

theorem mapUpdate_congr {V : Type} {m : List (Int × V)} {k : Int} {f g : V → V}
    (h : ∀ v, f v = g v) : mapUpdate m k f = mapUpdate m k g := by
  unfold mapUpdate
  apply List.map_congr_left
  intro q _
  by_cases hq : q.1 = k <;> simp [hq, h]

/-- C3 counterexample: replaying the same `world_snapshot` is not
idempotent on the store — the shapes are appended a second time.  One
snapshot with a single box yields one box; applying it again yields two. -/
theorem world_snapshot_replay_duplicates_shapes :
    (processMessage (⟨[], [], [], [], [], none⟩ : GameState)
        (.world_snapshot [⟨1, "a", 0, 0, 0, 100, 0⟩] [.box 10 10 5 5])).1.boxes
      = [⟨10, 10, 5, 5⟩] ∧
    (processMessage
        (processMessage (⟨[], [], [], [], [], none⟩ : GameState)
          (.world_snapshot [⟨1, "a", 0, 0, 0, 100, 0⟩] [.box 10 10 5 5])).1
        (.world_snapshot [⟨1, "a", 0, 0, 0, 100, 0⟩] [.box 10 10 5 5])).1.boxes
      = [⟨10, 10, 5, 5⟩, ⟨10, 10, 5, 5⟩] ∧
    ([(⟨10, 10, 5, 5⟩ : Box), ⟨10, 10, 5, 5⟩] : List Box) ≠ [⟨10, 10, 5, 5⟩] := by
  refine ⟨by decide, by decide, by decide⟩

/-- C3 amended: every store mutation is idempotent under replay on the
players and bullets collections (and on the local identity); in particular
replaying a `world_snapshot` leaves the player map unchanged, with exactly
one entry per listed id carrying the snapshot fields.  Shapes are excluded:
the snapshot branch appends its shape list again on replay. -/
theorem processMessage_replay_idempotent_players_bullets
    (s : GameState) (m : ServerMessage) :
    (processMessage (processMessage s m).1 m).1.players
      = (processMessage s m).1.players ∧
    (processMessage (processMessage s m).1 m).1.bullets
      = (processMessage s m).1.bullets ∧
    (processMessage (processMessage s m).1 m).1.myId
      = (processMessage s m).1.myId := by
  cases m with
  | welcome c => exact ⟨rfl, rfl, rfl⟩
  | player_position id x y angle =>
      cases h : mapGet s.players id with
      | none => simp [processMessage, h]
      | some p =>
          have h2 : mapGet
              (mapUpdate s.players id
                (fun p => { p with x := x, y := y, angle := angle })) id
              = some { p with x := x, y := y, angle := angle } := by
            rw [mapGet_mapUpdate_self, h]
            rfl
          simp only [processMessage, h, h2, and_true]
          rw [mapUpdate_mapUpdate]
          exact mapUpdate_congr (fun v => rfl)
  | player_health_changed id nh =>
      cases h : mapGet s.players id with
      | none => simp [processMessage, h]
      | some p =>
          have h2 : mapGet
              (mapUpdate s.players id (fun p => { p with health := nh })) id
              = some { p with health := nh } := by
            rw [mapGet_mapUpdate_self, h]
            rfl
          simp only [processMessage, h, h2, and_true]
          rw [mapUpdate_mapUpdate]
          exact mapUpdate_congr (fun v => rfl)
  | player_score_changed id ns =>
      cases h : mapGet s.players id with
      | none => simp [processMessage, h]
      | some p =>
          have h2 : mapGet
              (mapUpdate s.players id (fun p => { p with score := ns })) id
              = some { p with score := ns } := by
            rw [mapGet_mapUpdate_self, h]
            rfl
          simp only [processMessage, h, h2, and_true]
          rw [mapUpdate_mapUpdate]
          exact mapUpdate_congr (fun v => rfl)
  | world_snapshot ps shapes =>
      refine ⟨?_, rfl, rfl⟩
      simp only [processMessage]
      exact setMany_setMany
  | player_joined id username =>
      refine ⟨?_, rfl, rfl⟩
      simp only [processMessage]
      exact mapSet_mapSet_same
  | player_died id =>
      cases h : mapGet s.players id with
      | none => simp [processMessage, h]
      | some p =>
          have h2 : mapGet (mapDelete s.players id) id = none :=
            mapGet_mapDelete_self
          simp [processMessage, h, h2]
  | player_left id =>
      cases h : mapGet s.players id with
      | none => simp [processMessage, h]
      | some p =>
          have h2 : mapGet (mapDelete s.players id) id = none :=
            mapGet_mapDelete_self
          simp [processMessage, h, h2]
  | bullet_position id x y sc =>
      refine ⟨rfl, ?_, rfl⟩
      simp only [processMessage]
      exact mapSet_mapSet_same
  | bullet_gone id =>
      refine ⟨rfl, ?_, rfl⟩
      simp only [processMessage]
      exact mapDelete_mapDelete
  | bad_message e => exact ⟨rfl, rfl, rfl⟩
  | goodbye => exact ⟨rfl, rfl, rfl⟩
  | unknownTag t => exact ⟨rfl, rfl, rfl⟩

/-- The spec's example player collection for the scoreboard:
[(id:3,score:5), (id:1,score:5), (id:2,score:9)]. -/
def scoreboardExample : List Player :=
  [⟨3, "carol", 0, 0, 0, 0, 5⟩, ⟨1, "alice", 0, 0, 0, 0, 5⟩, ⟨2, "bob", 0, 0, 0, 0, 9⟩]

/-- C4: for every player collection with distinct ids (as `Map` values
always have), the scoreboard projection is the 5-element prefix of a
permutation of the collection sorted by the composite key — primary key
descending score, secondary key ascending id — and is itself ordered by
that composite key.  This rests on the stability of the two successive
sorts.  In particular the spec's example yields ids [2, 1, 3]. -/
theorem scoreboard_top5_composite (l : List Player)
    (h : (l.map (fun p => p.id)).Nodup) :
    (scoreboardPlayers l).Pairwise compositeR ∧
    ∃ l2 : List Player, l.Perm l2 ∧ l2.Pairwise compositeR ∧
      scoreboardPlayers l = l2.take 5 := by
  have hsorted := double_sort_pairwise_composite l h
  have heq : scoreboardPlayers l = (ssort leNs (ssort leId l)).take 5 := rfl
  constructor
  · rw [heq]
    exact List.Pairwise.sublist (List.take_sublist 5 _) hsorted
  · refine ⟨ssort leNs (ssort leId l), ?_, hsorted, heq⟩
    exact ((ssort_perm leNs (ssort leId l)).trans (ssort_perm leId l)).symm

/-- Witness for C4 on the spec's example collection, including the
concrete order [2, 1, 3]. -/
theorem scoreboard_top5_composite_witness :
    (scoreboardExample.map (fun p => p.id)).Nodup ∧
    ((scoreboardPlayers scoreboardExample).Pairwise compositeR ∧
      ∃ l2 : List Player, scoreboardExample.Perm l2 ∧ l2.Pairwise compositeR ∧
        scoreboardPlayers scoreboardExample = l2.take 5) ∧
    (scoreboardPlayers scoreboardExample).map (fun p => p.id) = [2, 1, 3] :=
  ⟨by decide, scoreboard_top5_composite scoreboardExample (by decide), by decide⟩

/-- C5: a `player_position` (likewise `player_health_changed` and
`player_score_changed`) naming an id absent from the player map leaves the
whole store unchanged and produces exactly one diagnostic; the handler is
total, so no exception is raised. -/
theorem unknown_player_update_reported_noop (s : GameState) (id : Int)
    (x y angle : ℚ) (nh ns : Int) (h : mapGet s.players id = none) :
    processMessage s (.player_position id x y angle) = (s, [missingPlayerMsg id]) ∧
    processMessage s (.player_health_changed id nh) = (s, [missingPlayerMsg id]) ∧
    processMessage s (.player_score_changed id ns) = (s, [missingPlayerMsg id]) ∧
    [missingPlayerMsg id].length = 1 := by
  refine ⟨?_, ?_, ?_, rfl⟩ <;> simp [processMessage, h]

/-- Witness for C5 on the empty store and id 5. -/
theorem unknown_player_update_reported_noop_witness :
    mapGet (⟨[], [], [], [], [], none⟩ : GameState).players 5 = none ∧
    (processMessage (⟨[], [], [], [], [], none⟩ : GameState)
        (.player_position 5 1 2 3)
      = (⟨[], [], [], [], [], none⟩, [missingPlayerMsg 5]) ∧
    processMessage (⟨[], [], [], [], [], none⟩ : GameState)
        (.player_health_changed 5 4)
      = (⟨[], [], [], [], [], none⟩, [missingPlayerMsg 5]) ∧
    processMessage (⟨[], [], [], [], [], none⟩ : GameState)
        (.player_score_changed 5 6)
      = (⟨[], [], [], [], [], none⟩, [missingPlayerMsg 5]) ∧
    [missingPlayerMsg 5].length = 1) :=
  ⟨rfl, unknown_player_update_reported_noop ⟨[], [], [], [], [], none⟩ 5 1 2 3 4 6 rfl⟩

/-- C6: the per-frame notification tick decrements every entry's ttl by
exactly the frame delta and keeps exactly the entries whose new ttl is
nonnegative, in order: the survivors are precisely the entries whose old
ttl was at least the delta (so an entry reaching exactly zero is retained,
and an entry is dropped on the first frame its ttl becomes negative). -/
theorem tickNotifications_spec (l : List Notification) (delta : ℚ) :
    tickNotifications l delta
      = (l.filter (fun n => decide (delta ≤ n.ttl))).map
          (fun n => ⟨n.message, n.ttl - delta⟩) := by
  induction l with
  | nil => rfl
  | cons n t ih =>
      unfold tickNotifications at ih ⊢
      by_cases h : delta ≤ n.ttl
      · have h2 : (0 : ℚ) ≤ n.ttl - delta := by linarith
        simp [h, h2, ih]
      · have h2 : ¬ ((0 : ℚ) ≤ n.ttl - delta) := fun hh => h (by linarith)
        simp [h, h2, ih]

/-- C7 counterexample: a message with an out-of-schema tag produces NO
diagnostic — the `if`/`else if` chain has no final `else` — so the claim
that the protocol violation is reported fails; the store is indeed left
unchanged. -/
theorem unknown_tag_produces_no_report :
    processMessage (⟨[], [], [], [], [], none⟩ : GameState) (.unknownTag "frobnicate")
      = (⟨[], [], [], [], [], none⟩, []) ∧
    (processMessage (⟨[], [], [], [], [], none⟩ : GameState)
        (.unknownTag "frobnicate")).2.length = 0 :=
  ⟨rfl, rfl⟩

/-- C7 amended: a message whose tag is not a recognized `ServerMessage`
variant is ignored silently — no crash (the handler is total), no store
mutation, and no diagnostic at all. -/
theorem unknown_tag_silently_ignored (s : GameState) (tag : String) :
    processMessage s (.unknownTag tag) = (s, []) := rfl

/-- C8 counterexample: after `goodbye` the session is not terminal.
`processMessage` ignores `goodbye` entirely (the store has no closed
state), and the very next animation-frame callback still requests another
frame and still mutates state, ticking a notification from ttl 6 to 5. -/
theorem frame_after_goodbye_still_runs :
    processMessage (⟨[], [], [], [], [⟨"b joined", 6⟩], some 7⟩ : GameState) .goodbye
      = (⟨[], [], [], [], [⟨"b joined", 6⟩], some 7⟩, []) ∧
    onFrameRender (some 1000)
        (processMessage (⟨[], [], [], [], [⟨"b joined", 6⟩], some 7⟩ : GameState)
          .goodbye).1 2000
      = (some 2000, (⟨[], [], [], [], [⟨"b joined", 5⟩], some 7⟩ : GameState), true) := by
  constructor
  · rfl
  · unfold onFrameRender renderFrameState tickNotifications processMessage
    norm_num

/-- C8 amended: there is no terminal `Closed` state.  Ending the session
changes nothing: `goodbye` is a complete no-op (no mutation, no
diagnostic), every animation-frame callback unconditionally requests the
next frame, and an armed deferred send still dispatches its pending value
when it fires, unguarded. -/
theorem no_terminal_state_after_goodbye (g : GameState) (lastT : Option ℚ)
    (t : ℚ) (s : DState Int) (d now v : Int)
    (hp : s.pendingDue = some d) (hv : s.lastValue = some v) :
    processMessage g .goodbye = (g, []) ∧
    (onFrameRender lastT g t).2.2 = true ∧
    (stepD s (.fire now)).2.1 = [(now, v)] := by
  refine ⟨rfl, ?_, ?_⟩
  · cases lastT <;> rfl
  · simp [stepD, hp, hv]

/-- Witness for the C8 amended theorem at a concrete armed sender. -/
theorem no_terminal_state_after_goodbye_witness :
    ((⟨200, 0, some 9, true, some 200⟩ : DState Int).pendingDue = some 200 ∧
      (⟨200, 0, some 9, true, some 200⟩ : DState Int).lastValue = some 9) ∧
    (processMessage (⟨[], [], [], [], [], none⟩ : GameState) .goodbye
        = (⟨[], [], [], [], [], none⟩, []) ∧
      (onFrameRender (some 1000) (⟨[], [], [], [], [], none⟩ : GameState) 2000).2.2
        = true ∧
      (stepD (⟨200, 0, some 9, true, some 200⟩ : DState Int) (.fire 300)).2.1
        = [(300, 9)]) :=
  ⟨⟨rfl, rfl⟩,
    no_terminal_state_after_goodbye ⟨[], [], [], [], [], none⟩ (some 1000) 2000
      ⟨200, 0, some 9, true, some 200⟩ 200 300 9 rfl rfl⟩

/-- C9 counterexample: the local identity is not write-once — a later
`welcome` message overwrites it.  With `myId = some 7`, processing
`welcome{client_id: 8}` changes the identity to 8. -/
theorem later_welcome_overwrites_identity :
    (processMessage (⟨[], [], [], [], [], some 7⟩ : GameState) (.welcome 8)).1.myId
      = some 8 ∧
    some (8 : Int) ≠ some 7 := by
  refine ⟨rfl, by decide⟩

/-- C9 amended: the local identity is written by every `welcome` message
(so a later `welcome` overwrites it) and is never changed by any other
message. -/
theorem myId_changed_only_by_welcome (s : GameState) (m : ServerMessage) :
    (processMessage s m).1.myId
      = match m with
        | .welcome c => some c
        | _ => s.myId := by
  cases m with
  | welcome c => rfl
  | player_position id x y angle => cases h : mapGet s.players id <;> simp [processMessage, h]
  | player_health_changed id nh => cases h : mapGet s.players id <;> simp [processMessage, h]
  | player_score_changed id ns => cases h : mapGet s.players id <;> simp [processMessage, h]
  | player_died id => cases h : mapGet s.players id <;> simp [processMessage, h]
  | player_left id => cases h : mapGet s.players id <;> simp [processMessage, h]
  | world_snapshot ps shapes => rfl
  | player_joined id username => rfl
  | bullet_position id x y sc => rfl
  | bullet_gone id => rfl
  | bad_message e => rfl
  | goodbye => rfl
  | unknownTag t => rfl

/-- C10: processing `player_joined{id, username}` when a player with that
id already exists overwrites it — the stored player becomes the zeroed
record with the new username (old position/angle/health/score are not
preserved), the map size is unchanged, and a "joined" notification with
ttl 6 is still appended. -/
theorem player_joined_overwrites_existing (s : GameState) (id : Int)
    (username : String) (h : containsKey s.players id = true) :
    mapGet (processMessage s (.player_joined id username)).1.players id
      = some ⟨id, username, 0, 0, 0, 0, 0⟩ ∧
    (processMessage s (.player_joined id username)).1.players.length
      = s.players.length ∧
    (processMessage s (.player_joined id username)).1.notifications
      = s.notifications ++ [⟨username ++ " joined", 6⟩] ∧
    (processMessage s (.player_joined id username)).2 = [] := by
  exact ⟨mapGet_mapSet_self, length_mapSet_present h, rfl, rfl⟩

/-- Witness for C10 on a store already holding player 4 with nonzero
fields. -/
theorem player_joined_overwrites_existing_witness :
    containsKey
        (⟨[(4, ⟨4, "old", 1, 2, 3, 50, 9⟩)], [], [], [], [], none⟩ : GameState).players 4
      = true ∧
    (mapGet (processMessage
        (⟨[(4, ⟨4, "old", 1, 2, 3, 50, 9⟩)], [], [], [], [], none⟩ : GameState)
        (.player_joined 4 "fresh")).1.players 4
      = some ⟨4, "fresh", 0, 0, 0, 0, 0⟩ ∧
    (processMessage
        (⟨[(4, ⟨4, "old", 1, 2, 3, 50, 9⟩)], [], [], [], [], none⟩ : GameState)
        (.player_joined 4 "fresh")).1.players.length
      = (⟨[(4, ⟨4, "old", 1, 2, 3, 50, 9⟩)], [], [], [], [], none⟩ : GameState).players.length ∧
    (processMessage
        (⟨[(4, ⟨4, "old", 1, 2, 3, 50, 9⟩)], [], [], [], [], none⟩ : GameState)
        (.player_joined 4 "fresh")).1.notifications
      = (⟨[(4, ⟨4, "old", 1, 2, 3, 50, 9⟩)], [], [], [], [], none⟩ : GameState).notifications
        ++ [⟨"fresh joined", 6⟩] ∧
    (processMessage
        (⟨[(4, ⟨4, "old", 1, 2, 3, 50, 9⟩)], [], [], [], [], none⟩ : GameState)
        (.player_joined 4 "fresh")).2 = []) :=
  ⟨rfl, player_joined_overwrites_existing
    ⟨[(4, ⟨4, "old", 1, 2, 3, 50, 9⟩)], [], [], [], [], none⟩ 4 "fresh" rfl⟩

end TdsClient
